import Mathlib

/-!
# Verification of the ChatAPI connection hub

A shallow embedding of the connection-hub core of the ChatAPI repository
(`main.go`, `main_fixed.go`, and the room-aware websocket hub variant),
together with theorems settling the specification claims about it.

The Go hub serializes all state changes through a single control loop
(`ChatHub.run`): each iteration handles exactly one request taken from the
`register`, `unregister` or `broadcast` channel.  We model one iteration as
a pure step function on a hub state.  A Go buffered channel is modelled as
a list (its pending contents) together with its capacity; a *blocking* send
on a full channel makes the step function return `none` (the control loop
is stuck), while the *non-blocking* send used in the broadcast fan-out
(`select`/`default`) is total.  A `*ChatClient` pointer is identified by a
numeric `cid`; `close(client.send)` is recorded by appending the `cid` to a
`closed` log, so that the number of `close` calls on a channel is the count
of its `cid` in that log.
-/

/-- `ChatMessage` from `main.go`: id, sender, content, mentions, timestamp
(the timestamp is abstracted to a `Nat`). -/
structure ChatMessage where
  id : String
  sender : String
  content : String
  mentions : List String
  timestamp : Nat
deriving DecidableEq, Repr

/-- `ChatClient` from `main.go`, restricted to the data the hub control loop
touches: the pointer identity `cid`, and the buffered `send` channel,
modelled by its pending contents plus its capacity (256 at the `make` site
in `serveWs`). -/
structure ChatClient where
  cid : Nat
  cap : Nat
  send : List ChatMessage
deriving DecidableEq, Repr

/-- The state owned by the `ChatHub.run` control loop: the registered-client
set `clients` (a Go map keyed by the `*ChatClient` pointer, so `cid`s are
unique), the message `history`, and the log of `close(client.send)` calls. -/
structure ChatHub where
  clients : List ChatClient
  history : List ChatMessage
  closed : List Nat
deriving DecidableEq, Repr

/-- `newChatHub()` from `main.go`: empty client set, empty history. -/
def newChatHub : ChatHub :=
  { clients := [], history := [], closed := [] }

/-- The broadcast fan-out loop of `ChatHub.run` (`main.go:104-111`): for each
registered client, a non-blocking send of `m`; on a full queue the `default`
branch runs `close(client.send); delete(h.clients, client)`.  Returns the
surviving clients (queues extended by `m`) and the `cid`s of the evicted
clients (whose channels were closed). -/
def fanOut (m : ChatMessage) : List ChatClient → List ChatClient × List Nat
  | [] => ([], [])
  | c :: cs =>
    let r := fanOut m cs
    if c.send.length < c.cap then
      ({ c with send := c.send ++ [m] } :: r.1, r.2)
    else
      (r.1, c.cid :: r.2)

/-- One `broadcast` iteration of `ChatHub.run` (`main.go:97-111`): append the
message to `history`, then fan it out to every registered client with a
non-blocking send, evicting (and closing) clients whose queue is full.  This
step is a total function: the control loop never blocks on a broadcast. -/
def broadcastStep (h : ChatHub) (m : ChatMessage) : ChatHub :=
  let r := fanOut m h.clients
  { clients := r.1, history := h.history ++ [m], closed := h.closed ++ r.2 }

/-- One `unregister` iteration of `ChatHub.run` (`main.go:91-95`): if the
client is present, remove it and close its send channel; otherwise do
nothing. -/
def unregisterStep (h : ChatHub) (cid : Nat) : ChatHub :=
  if h.clients.any (fun d => d.cid = cid) then
    { h with clients := h.clients.filter (fun d => d.cid ≠ cid),
             closed := h.closed ++ [cid] }
  else
    h

/-- The blocking sends `client.send <- msg` of the history-replay loop in the
`register` branch (`main.go:86-88`), performed on a queue `q` of capacity
`cap`: each send succeeds only while the queue has room; a send on a full
queue blocks the control loop, which we model as `none`. -/
def replayQueue (cap : Nat) (q : List ChatMessage) : List ChatMessage → Option (List ChatMessage)
  | [] => some q
  | m :: ms => if q.length < cap then replayQueue cap (q ++ [m]) ms else none

/-- Replay the messages `ms` into the send channel of the client with pointer
identity `cid` in the client list. -/
def replayInto (cid : Nat) (ms : List ChatMessage) : List ChatClient → Option (List ChatClient)
  | [] => some []
  | c :: cs =>
    if c.cid = cid then
      (replayQueue c.cap c.send ms).map (fun q => { c with send := q } :: cs)
    else
      (replayInto cid ms cs).map (fun cs2 => c :: cs2)

/-- One `register` iteration of `ChatHub.run` (`main.go:82-89`): insert the
client into the map (`h.clients[client] = true`, a no-op when the pointer is
already a key), then replay the whole history into its send channel with
blocking sends.  `none` models the control loop blocking on a full queue
during the replay. -/
def registerStep (h : ChatHub) (c : ChatClient) : Option ChatHub :=
  let cs := if h.clients.any (fun d => d.cid = c.cid) then h.clients else h.clients ++ [c]
  (replayInto c.cid h.history cs).map (fun cs2 => { h with clients := cs2 })

/-- A sequence of broadcast requests processed back-to-back by the control
loop. -/
def runBroadcasts (h : ChatHub) (ms : List ChatMessage) : ChatHub :=
  ms.foldl broadcastStep h

/-- A request arriving on one of the hub's three channels. -/
inductive HubOp where
  | register (c : ChatClient)
  | unregister (cid : Nat)
  | broadcast (m : ChatMessage)
deriving DecidableEq, Repr

/-- Process one request, as one iteration of the `select` in `ChatHub.run`. -/
def runOp (h : ChatHub) : HubOp → Option ChatHub
  | .register c => registerStep h c
  | .unregister cid => some (unregisterStep h cid)
  | .broadcast m => some (broadcastStep h m)

/-- Process a finite sequence of requests in order; `none` if the control
loop blocks at some point. -/
def runOps (h : ChatHub) : List HubOp → Option ChatHub
  | [] => some h
  | op :: ops => (runOp h op).bind (fun h2 => runOps h2 ops)

/-- The pointer identities of the registered clients. -/
def cids (h : ChatHub) : List Nat :=
  h.clients.map ChatClient.cid

/- ### Basic lemmas about the fan-out -/

theorem fanOut_fst (m : ChatMessage) (cs : List ChatClient) :
    (fanOut m cs).1 =
      (cs.filter (fun c => c.send.length < c.cap)).map
        (fun c => { c with send := c.send ++ [m] }) := by
  induction cs with
  | nil => rfl
  | cons c cs ih =>
    by_cases hc : c.send.length < c.cap <;> simp [fanOut, hc, ih, List.filter_cons]

theorem fanOut_snd (m : ChatMessage) (cs : List ChatClient) :
    (fanOut m cs).2 =
      (cs.filter (fun c => ¬ c.send.length < c.cap)).map ChatClient.cid := by
  induction cs with
  | nil => rfl
  | cons c cs ih =>
    by_cases hc : c.send.length < c.cap
    · simp [fanOut, hc, ih, List.filter_cons]
    · simp [fanOut, hc, ih, List.filter_cons, Nat.not_lt.1 hc]

theorem broadcastStep_clients (h : ChatHub) (m : ChatMessage) :
    (broadcastStep h m).clients =
      (h.clients.filter (fun c => c.send.length < c.cap)).map
        (fun c => { c with send := c.send ++ [m] }) := by
  simp [broadcastStep, fanOut_fst]

theorem broadcastStep_closed (h : ChatHub) (m : ChatMessage) :
    (broadcastStep h m).closed =
      h.closed ++ (h.clients.filter (fun c => ¬ c.send.length < c.cap)).map ChatClient.cid := by
  simp [broadcastStep, fanOut_snd]

theorem broadcastStep_history (h : ChatHub) (m : ChatMessage) :
    (broadcastStep h m).history = h.history ++ [m] := rfl

theorem mem_broadcastStep_clients {h : ChatHub} {m : ChatMessage} {d : ChatClient}
    (hd : d ∈ (broadcastStep h m).clients) :
    ∃ d0 ∈ h.clients, d0.send.length < d0.cap ∧ d = { d0 with send := d0.send ++ [m] } := by
  rw [broadcastStep_clients] at hd
  rcases List.mem_map.1 hd with ⟨d0, hd0, rfl⟩
  rcases List.mem_filter.1 hd0 with ⟨hmem, hlt⟩
  exact ⟨d0, hmem, by simpa using hlt, rfl⟩

theorem cids_broadcastStep_sublist (h : ChatHub) (m : ChatMessage) :
    (cids (broadcastStep h m)).Sublist (cids h) := by
  rw [cids, broadcastStep_clients, List.map_map]
  have h1 : (ChatClient.cid ∘ fun c => { c with send := c.send ++ [m] }) = ChatClient.cid := by
    funext c; rfl
  rw [h1]
  exact (List.filter_sublist h.clients).map ChatClient.cid

theorem nodup_cids_broadcastStep {h : ChatHub} (m : ChatMessage)
    (hnd : (cids h).Nodup) : (cids (broadcastStep h m)).Nodup :=
  hnd.sublist (cids_broadcastStep_sublist h m)

theorem cid_inj {h : ChatHub} (hnd : (cids h).Nodup) {c d : ChatClient}
    (hc : c ∈ h.clients) (hd : d ∈ h.clients) (hcd : c.cid = d.cid) : c = d :=
  List.inj_on_of_nodup_map hnd hc hd hcd

theorem mem_broadcastStep_of_room {h : ChatHub} {m : ChatMessage} {c : ChatClient}
    (hc : c ∈ h.clients) (hroom : c.send.length < c.cap) :
    { c with send := c.send ++ [m] } ∈ (broadcastStep h m).clients := by
  rw [broadcastStep_clients]
  exact List.mem_map_of_mem _ (List.mem_filter.2 ⟨hc, by simpa using hroom⟩)

theorem cids_runBroadcasts_sublist (ms : List ChatMessage) :
    ∀ h : ChatHub, (cids (runBroadcasts h ms)).Sublist (cids h) := by
  induction ms with
  | nil => intro h; exact List.Sublist.refl _
  | cons m ms ih =>
    intro h
    exact ((ih (broadcastStep h m)).trans (cids_broadcastStep_sublist h m))

theorem runBroadcasts_history (ms : List ChatMessage) :
    ∀ h : ChatHub, (runBroadcasts h ms).history = h.history ++ ms := by
  induction ms with
  | nil => intro h; simp [runBroadcasts]
  | cons m ms ih =>
    intro h
    have := ih (broadcastStep h m)
    simp only [runBroadcasts, List.foldl_cons] at this ⊢
    rw [this, broadcastStep_history]
    simp

/-- Core FIFO lemma: a client that survives a whole sequence of broadcasts
has observed exactly that sequence, appended in order to its queue. -/
theorem runBroadcasts_send (ms : List ChatMessage) :
    ∀ (h : ChatHub) (c : ChatClient), (cids h).Nodup → c ∈ h.clients →
      ∀ d ∈ (runBroadcasts h ms).clients, d.cid = c.cid → d.send = c.send ++ ms := by
  induction ms with
  | nil =>
    intro h c hnd hc d hd hcd
    have : d = c := cid_inj hnd hd hc hcd
    simp [runBroadcasts, this]
  | cons m ms ih =>
    intro h c hnd hc d hd hcd
    simp only [runBroadcasts, List.foldl_cons] at hd
    by_cases hroom : c.send.length < c.cap
    · have hmem := mem_broadcastStep_of_room (m := m) hc hroom
      have hnd2 := nodup_cids_broadcastStep m hnd
      have := ih (broadcastStep h m) { c with send := c.send ++ [m] } hnd2 hmem d hd hcd
      simpa using this
    · exfalso
      have hdcid : d.cid ∈ cids (runBroadcasts (broadcastStep h m) ms) :=
        List.mem_map_of_mem _ hd
      have hsub := cids_runBroadcasts_sublist ms (broadcastStep h m)
      have hmem2 : c.cid ∈ cids (broadcastStep h m) := hcd ▸ hsub.mem hdcid
      rw [cids, broadcastStep_clients, List.map_map] at hmem2
      rcases List.mem_map.1 hmem2 with ⟨d0, hd0, hd0cid⟩
      rcases List.mem_filter.1 hd0 with ⟨hd0mem, hd0room⟩
      have : d0 = c := cid_inj hnd hd0mem hc hd0cid
      subst this
      exact hroom (by simpa using hd0room)

/-- C1: FIFO order of broadcasts.  Processing broadcast requests
`m1..mn` back-to-back appends `m1..mn` to the history in that order, and
every connection still registered after the whole sequence has observed
`m1..mn` appended to its outbound queue in exactly that relative order. -/
theorem hub_broadcast_fifo (h : ChatHub) (ms : List ChatMessage) (c : ChatClient)
    (hnd : (cids h).Nodup) (hc : c ∈ h.clients) :
    (runBroadcasts h ms).history = h.history ++ ms ∧
    ∀ d ∈ (runBroadcasts h ms).clients, d.cid = c.cid → d.send = c.send ++ ms :=
  ⟨runBroadcasts_history ms h, runBroadcasts_send ms h c hnd hc⟩

def msgA : ChatMessage := ⟨"m-a", "alice", "hi @bob", ["bob"], 0⟩

def msgB : ChatMessage := ⟨"m-b", "bob", "hello", [], 1⟩

def clientA : ChatClient := ⟨0, 256, []⟩

def hubA : ChatHub := ⟨[clientA], [], []⟩

theorem hub_broadcast_fifo_witness :
    ((cids hubA).Nodup ∧ clientA ∈ hubA.clients) ∧
    ((runBroadcasts hubA [msgA, msgB]).history = hubA.history ++ [msgA, msgB] ∧
      ∀ d ∈ (runBroadcasts hubA [msgA, msgB]).clients, d.cid = clientA.cid →
        d.send = clientA.send ++ [msgA, msgB]) :=
  ⟨⟨by decide, by decide⟩, hub_broadcast_fifo hubA [msgA, msgB] clientA (by decide) (by decide)⟩

/- ### Lemmas about the register branch -/

theorem replayQueue_eq (cap : Nat) (ms : List ChatMessage) :
    ∀ q q2 : List ChatMessage, replayQueue cap q ms = some q2 → q2 = q ++ ms := by
  induction ms with
  | nil => intro q q2 hq; simp [replayQueue] at hq; simp [hq.symm]
  | cons m ms ih =>
    intro q q2 hq
    by_cases hroom : q.length < cap
    · simp only [replayQueue, if_pos hroom] at hq
      have := ih (q ++ [m]) q2 hq
      simpa using this
    · simp [replayQueue, if_neg hroom] at hq

theorem replayInto_append (c : ChatClient) (ms : List ChatMessage) :
    ∀ cs : List ChatClient, (∀ d ∈ cs, d.cid ≠ c.cid) →
      replayInto c.cid ms (cs ++ [c]) =
        (replayQueue c.cap c.send ms).map (fun q => cs ++ [{ c with send := q }]) := by
  intro cs
  induction cs with
  | nil => intro _; simp [replayInto]
  | cons d cs ih =>
    intro hfresh
    have hd : d.cid ≠ c.cid := hfresh d (List.mem_cons_self d cs)
    have hrest : ∀ e ∈ cs, e.cid ≠ c.cid := fun e he => hfresh e (List.mem_cons_of_mem d he)
    calc replayInto c.cid ms ((d :: cs) ++ [c])
        = (replayInto c.cid ms (cs ++ [c])).map (fun cs2 => d :: cs2) := by
          rw [List.cons_append, replayInto, if_neg hd]
      _ = ((replayQueue c.cap c.send ms).map
            (fun q => cs ++ [{ c with send := q }])).map (fun cs2 => d :: cs2) := by
          rw [ih hrest]
      _ = (replayQueue c.cap c.send ms).map (fun q => (d :: cs) ++ [{ c with send := q }]) := by
          rw [Option.map_map]; rfl

theorem registerStep_fresh {h : ChatHub} {c : ChatClient} (hfresh : c.cid ∉ cids h) :
    registerStep h c =
      (replayQueue c.cap c.send h.history).map
        (fun q => { h with clients := h.clients ++ [{ c with send := q }] }) := by
  have hne : ∀ d ∈ h.clients, d.cid ≠ c.cid := by
    intro d hd hdc
    exact hfresh (hdc ▸ List.mem_map_of_mem ChatClient.cid hd)
  have hany : h.clients.any (fun d => d.cid = c.cid) = false := by
    simp only [List.any_eq_false, decide_eq_true_eq]
    exact hne
  unfold registerStep
  rw [hany]
  simp only [Bool.false_eq_true, if_false]
  rw [replayInto_append c h.history h.clients hne, Option.map_map]
  rfl

/-- C2: registration replays the full history, in original order, each
message exactly once, and all of it ahead of any message broadcast after the
registration.  If a register request for a fresh connection `c` completes
while the history is `h.history`, the connection is in the membership set
with outbound queue `c.send ++ h.history`, and after any further broadcasts
`ms` its queue is `(c.send ++ h.history) ++ ms`. -/
theorem register_replays_history (h h2 : ChatHub) (c : ChatClient) (ms : List ChatMessage)
    (hnd : (cids h).Nodup) (hfresh : c.cid ∉ cids h)
    (hreg : registerStep h c = some h2) :
    (∃ d ∈ h2.clients, d.cid = c.cid ∧ d.send = c.send ++ h.history) ∧
    ∀ d ∈ (runBroadcasts h2 ms).clients, d.cid = c.cid →
      d.send = (c.send ++ h.history) ++ ms := by
  rw [registerStep_fresh hfresh] at hreg
  cases hq : replayQueue c.cap c.send h.history with
  | none => rw [hq] at hreg; exact Option.noConfusion hreg
  | some q =>
    rw [hq] at hreg
    have hqeq : q = c.send ++ h.history := replayQueue_eq c.cap h.history c.send q hq
    injection hreg with hreg
    subst hreg
    have hmem : ({ c with send := q } : ChatClient) ∈ h.clients ++ [{ c with send := q }] :=
      List.mem_append_right _ (List.mem_singleton.2 rfl)
    constructor
    · exact ⟨{ c with send := q }, hmem, rfl, hqeq⟩
    · have hnd2 : (cids { h with clients := h.clients ++ [{ c with send := q }] }).Nodup := by
        simp only [cids, List.map_append, List.map_cons, List.map_nil]
        rw [List.nodup_append]
        refine ⟨hnd, List.nodup_singleton _, ?_⟩
        intro x hx hx2
        simp only [List.mem_singleton] at hx2
        subst hx2
        exact hfresh hx
      intro d hd hcd
      have := runBroadcasts_send ms _ { c with send := q } hnd2 hmem d hd hcd
      simpa [hqeq] using this

def clientB : ChatClient := ⟨1, 256, []⟩

def hubB : ChatHub := ⟨[], [msgA], []⟩

theorem register_replays_history_witness :
    ((cids hubB).Nodup ∧ clientB.cid ∉ cids hubB ∧
      registerStep hubB clientB = some ⟨[⟨1, 256, [msgA]⟩], [msgA], []⟩) ∧
    ((∃ d ∈ (⟨[⟨1, 256, [msgA]⟩], [msgA], []⟩ : ChatHub).clients,
        d.cid = clientB.cid ∧ d.send = clientB.send ++ hubB.history) ∧
      ∀ d ∈ (runBroadcasts ⟨[⟨1, 256, [msgA]⟩], [msgA], []⟩ [msgB]).clients,
        d.cid = clientB.cid → d.send = (clientB.send ++ hubB.history) ++ [msgB]) :=
  ⟨⟨by decide, by decide, by decide⟩,
    register_replays_history hubB ⟨[⟨1, 256, [msgA]⟩], [msgA], []⟩ clientB [msgB]
      (by decide) (by decide) (by decide)⟩

/- ### Lemmas about eviction and unregistration -/

theorem any_cid_eq_false {h : ChatHub} {cid0 : Nat} (habs : cid0 ∉ cids h) :
    h.clients.any (fun d => d.cid = cid0) = false := by
  simp only [List.any_eq_false, decide_eq_true_eq]
  intro d hd hdc
  exact habs (hdc ▸ List.mem_map_of_mem ChatClient.cid hd)

theorem any_cid_eq_true {h : ChatHub} {cid0 : Nat} (hmem : cid0 ∈ cids h) :
    h.clients.any (fun d => d.cid = cid0) = true := by
  rcases List.mem_map.1 hmem with ⟨d, hd, hdc⟩
  exact List.any_eq_true.2 ⟨d, hd, by simpa using hdc⟩

theorem unregisterStep_of_absent {h : ChatHub} {cid0 : Nat}
    (habs : h.clients.any (fun d => d.cid = cid0) = false) :
    unregisterStep h cid0 = h := by
  unfold unregisterStep
  rw [habs]
  simp

theorem any_filter_self (cid0 : Nat) (cs : List ChatClient) :
    (cs.filter (fun d => d.cid ≠ cid0)).any (fun d => d.cid = cid0) = false := by
  induction cs with
  | nil => rfl
  | cons d cs ih =>
    by_cases hd : d.cid = cid0 <;> simp [List.filter_cons, hd, ih]

/-- A client with a full queue is no longer registered after a broadcast:
the fan-out's `default` branch has deleted it. -/
theorem broadcast_full_not_mem {h : ChatHub} {m : ChatMessage} {c : ChatClient}
    (hnd : (cids h).Nodup) (hc : c ∈ h.clients) (hfull : ¬ c.send.length < c.cap) :
    c.cid ∉ cids (broadcastStep h m) := by
  intro hmem
  rw [cids, broadcastStep_clients, List.map_map] at hmem
  rcases List.mem_map.1 hmem with ⟨d0, hd0, hd0cid⟩
  rcases List.mem_filter.1 hd0 with ⟨hd0mem, hd0room⟩
  have : d0 = c := cid_inj hnd hd0mem hc hd0cid
  subst this
  exact hfull (by simpa using hd0room)

/-- C3: slow-consumer eviction.  A broadcast that finds the queue of a
registered connection `c` full is still a total step (the control loop does
not block); it appends the message to the history, drops the message for
`c`, removes `c` from the membership set and closes its queue, and every
other registered connection with room in its queue still receives the
message. -/
theorem broadcast_slow_consumer_eviction (h : ChatHub) (m : ChatMessage) (c : ChatClient)
    (hnd : (cids h).Nodup) (hc : c ∈ h.clients) (hfull : ¬ c.send.length < c.cap) :
    c.cid ∉ cids (broadcastStep h m) ∧
    c.cid ∈ (broadcastStep h m).closed ∧
    (broadcastStep h m).history = h.history ++ [m] ∧
    ∀ d ∈ h.clients, d.cid ≠ c.cid → d.send.length < d.cap →
      { d with send := d.send ++ [m] } ∈ (broadcastStep h m).clients := by
  refine ⟨broadcast_full_not_mem hnd hc hfull, ?_, broadcastStep_history h m, ?_⟩
  · rw [broadcastStep_closed]
    exact List.mem_append_right _
      (List.mem_map_of_mem _ (List.mem_filter.2 ⟨hc, by simpa using hfull⟩))
  · intro d hd _ hroom
    exact mem_broadcastStep_of_room hd hroom

def clientC : ChatClient := ⟨2, 1, [msgA]⟩

def hubC : ChatHub := ⟨[clientA, clientC], [msgA], []⟩

theorem broadcast_slow_consumer_eviction_witness :
    ((cids hubC).Nodup ∧ clientC ∈ hubC.clients ∧ ¬ clientC.send.length < clientC.cap) ∧
    (clientC.cid ∉ cids (broadcastStep hubC msgB) ∧
      clientC.cid ∈ (broadcastStep hubC msgB).closed ∧
      (broadcastStep hubC msgB).history = hubC.history ++ [msgB] ∧
      ∀ d ∈ hubC.clients, d.cid ≠ clientC.cid → d.send.length < d.cap →
        { d with send := d.send ++ [msgB] } ∈ (broadcastStep hubC msgB).clients) :=
  ⟨⟨by decide, by decide, by decide⟩,
    broadcast_slow_consumer_eviction hubC msgB clientC (by decide) (by decide) (by decide)⟩

/-- C4: `unregister` is idempotent.  Unregistering an absent connection is a
no-op; running the unregister branch twice for the same connection equals
running it once; a registered connection's queue is closed exactly once (the
`closed` log gains exactly one entry for it); and when the connection was
already removed by slow-consumer eviction during a broadcast, the later
unregister request is a no-op (no double close). -/
theorem unregister_idempotent (h : ChatHub) (cid0 : Nat) (c : ChatClient) (m : ChatMessage) :
    (cid0 ∉ cids h → unregisterStep h cid0 = h) ∧
    unregisterStep (unregisterStep h cid0) cid0 = unregisterStep h cid0 ∧
    (cid0 ∈ cids h →
      (unregisterStep h cid0).closed.count cid0 = h.closed.count cid0 + 1) ∧
    ((cids h).Nodup → c ∈ h.clients → ¬ c.send.length < c.cap →
      unregisterStep (broadcastStep h m) c.cid = broadcastStep h m) := by
  refine ⟨?_, ?_, ?_, ?_⟩
  · intro habs
    exact unregisterStep_of_absent (any_cid_eq_false habs)
  · by_cases hmem : h.clients.any (fun d => d.cid = cid0) = true
    · have h1 : unregisterStep h cid0 =
          { h with clients := h.clients.filter (fun d => d.cid ≠ cid0),
                   closed := h.closed ++ [cid0] } := by
        unfold unregisterStep
        rw [hmem]
        simp
      rw [h1]
      exact unregisterStep_of_absent (any_filter_self cid0 h.clients)
    · have habs : h.clients.any (fun d => d.cid = cid0) = false :=
        Bool.eq_false_iff.2 hmem
      rw [unregisterStep_of_absent habs, unregisterStep_of_absent habs]
  · intro hmem
    have h1 : unregisterStep h cid0 =
        { h with clients := h.clients.filter (fun d => d.cid ≠ cid0),
                 closed := h.closed ++ [cid0] } := by
      unfold unregisterStep
      rw [any_cid_eq_true hmem]
      simp
    rw [h1]
    simp [List.count_append]
  · intro hnd hc hfull
    exact unregisterStep_of_absent (any_cid_eq_false (broadcast_full_not_mem hnd hc hfull))

theorem unregister_idempotent_witness :
    (clientC.cid ∈ cids hubC ∧
      (cids hubC).Nodup ∧ clientC ∈ hubC.clients ∧ ¬ clientC.send.length < clientC.cap) ∧
    ((clientA.cid ∉ cids hubB → unregisterStep hubB clientA.cid = hubB) ∧
      unregisterStep (unregisterStep hubC clientC.cid) clientC.cid =
        unregisterStep hubC clientC.cid ∧
      (clientC.cid ∈ cids hubC →
        (unregisterStep hubC clientC.cid).closed.count clientC.cid =
          hubC.closed.count clientC.cid + 1) ∧
      ((cids hubC).Nodup → clientC ∈ hubC.clients → ¬ clientC.send.length < clientC.cap →
        unregisterStep (broadcastStep hubC msgB) clientC.cid = broadcastStep hubC msgB)) :=
  ⟨⟨by decide, by decide, by decide, by decide⟩,
    ⟨(unregister_idempotent hubB clientA.cid clientA msgB).1,
      (unregister_idempotent hubC clientC.cid clientC msgB).2.1,
      (unregister_idempotent hubC clientC.cid clientC msgB).2.2.1,
      (unregister_idempotent hubC clientC.cid clientC msgB).2.2.2⟩⟩

/- ### The register branch on a full queue (C5) -/

theorem replayQueue_eq_none_iff (cap : Nat) (ms : List ChatMessage) :
    ∀ q : List ChatMessage,
      replayQueue cap q ms = none ↔ ms ≠ [] ∧ cap < q.length + ms.length := by
  induction ms with
  | nil => intro q; simp [replayQueue]
  | cons m ms ih =>
    intro q
    by_cases hroom : q.length < cap
    · rw [replayQueue, if_pos hroom, ih (q ++ [m])]
      constructor
      · rintro ⟨_, hlt⟩
        refine ⟨List.cons_ne_nil m ms, ?_⟩
        simp only [List.length_append, List.length_singleton, List.length_cons,
          List.length_nil] at hlt ⊢
        omega
      · rintro ⟨_, hlt⟩
        simp only [List.length_cons] at hlt
        refine ⟨?_, ?_⟩
        · intro hnil
          subst hnil
          simp only [List.length_nil] at hlt
          omega
        · simp only [List.length_append, List.length_singleton, List.length_nil]
          omega
    · rw [replayQueue, if_neg hroom]
      simp only [List.length_cons, ne_eq, List.cons_ne_nil, not_false_eq_true, true_and, true_iff]
      omega

/-- C5 (amended): the history replay in the register branch uses *blocking*
channel sends.  For a fresh connection, the register request blocks the
control loop (never completes) exactly when the history does not fit in the
queue's remaining capacity — the connection is *not* evicted; and whenever
the register request does complete, the connection is in the membership
set. -/
theorem register_blocks_on_full_queue (h : ChatHub) (c : ChatClient)
    (hfresh : c.cid ∉ cids h) :
    (registerStep h c = none ↔
      h.history ≠ [] ∧ c.cap < c.send.length + h.history.length) ∧
    ∀ h2, registerStep h c = some h2 → c.cid ∈ cids h2 := by
  constructor
  · rw [registerStep_fresh hfresh, Option.map_eq_none']
    exact replayQueue_eq_none_iff c.cap h.history c.send
  · intro h2 hreg
    rw [registerStep_fresh hfresh] at hreg
    rcases Option.map_eq_some'.1 hreg with ⟨q, _, hEq⟩
    rw [← hEq]
    simp [cids]

/-- A connection whose queue is already full while the hub history is
non-empty: `serveWs` makes the queue with capacity 256, but the model keeps
the capacity as a field, and capacity 1 with one pending message is full. -/
def clientD : ChatClient := ⟨3, 1, [msgB]⟩

theorem register_blocks_on_full_queue_witness :
    (clientD.cid ∉ cids hubB) ∧
    ((registerStep hubB clientD = none ↔
        hubB.history ≠ [] ∧ clientD.cap < clientD.send.length + hubB.history.length) ∧
      ∀ h2, registerStep hubB clientD = some h2 → clientD.cid ∈ cids h2) :=
  ⟨by decide, register_blocks_on_full_queue hubB clientD (by decide)⟩

/-- C5 counterexample: registering a connection whose queue is already full
while the history is non-empty makes the control loop block (`none`): there
is no resulting state at all, so in particular no state in which the
connection was "scheduled for removal", contradicting the claim that
register does not block and evicts the connection. -/
theorem register_full_queue_cex :
    registerStep hubB clientD = none ∧ ¬ ∃ h2, registerStep hubB clientD = some h2 := by
  refine ⟨by decide, ?_⟩
  rintro ⟨h2, he⟩
  rw [(by decide : registerStep hubB clientD = none)] at he
  exact Option.noConfusion he

/- ### Membership after register/unregister sequences (C6) -/

def isBroadcast : HubOp → Bool
  | .broadcast _ => true
  | _ => false

/-- The membership characterization asserted by the claim: a connection is
registered exactly when its net count of register minus unregister requests
is odd. -/
def netRegOdd (ops : List HubOp) (cid0 : Nat) : Prop :=
  ((ops.countP (fun op => match op with | .register c => c.cid = cid0 | _ => false) : Int) -
      (ops.countP (fun op => match op with | .unregister d => d = cid0 | _ => false) : Int))
    % 2 = 1

/-- The membership characterization the code actually implements: the last
register/unregister request for a connection wins (register inserts into the
set, unregister removes). -/
def memAfter (cid0 : Nat) (b : Bool) (ops : List HubOp) : Bool :=
  ops.foldl (fun b op =>
    match op with
    | .register c => if c.cid = cid0 then true else b
    | .unregister d => if d = cid0 then false else b
    | .broadcast _ => b) b

theorem replayInto_nil (cid0 : Nat) (cs : List ChatClient) :
    replayInto cid0 [] cs = some cs := by
  induction cs with
  | nil => rfl
  | cons c cs ih =>
    by_cases hc : c.cid = cid0
    · rw [replayInto, if_pos hc]
      rfl
    · rw [replayInto, if_neg hc, ih]
      rfl

theorem registerStep_empty_history {h : ChatHub} (hh : h.history = []) (c : ChatClient) :
    registerStep h c = some { h with clients :=
      (if h.clients.any (fun d => d.cid = c.cid) then h.clients else h.clients ++ [c]) } := by
  simp only [registerStep]
  rw [hh, replayInto_nil]
  rfl

theorem any_insert (cs : List ChatClient) (c : ChatClient) (cid0 : Nat) :
    ((if cs.any (fun d => d.cid = c.cid) then cs else cs ++ [c]).any
        (fun d => d.cid = cid0)) =
      (if c.cid = cid0 then true else cs.any (fun d => d.cid = cid0)) := by
  by_cases hc : cs.any (fun d => d.cid = c.cid) = true
  · rw [if_pos hc]
    by_cases he : c.cid = cid0
    · subst he
      simp only [if_pos rfl]
      rcases List.any_eq_true.1 hc with ⟨d, hd, hdc⟩
      exact List.any_eq_true.2 ⟨d, hd, hdc⟩
    · rw [if_neg he]
  · rw [if_neg hc, List.any_append]
    by_cases he : c.cid = cid0
    · simp [he]
    · simp [he]

theorem any_filter_ne (u cid0 : Nat) (hne : u ≠ cid0) (cs : List ChatClient) :
    ((cs.filter (fun d => d.cid ≠ u)).any (fun d => d.cid = cid0)) =
      cs.any (fun d => d.cid = cid0) := by
  rw [Bool.eq_iff_iff]
  simp only [List.any_eq_true, List.mem_filter, decide_eq_true_eq]
  constructor
  · rintro ⟨d, ⟨hd, _⟩, hdc⟩
    exact ⟨d, hd, hdc⟩
  · rintro ⟨d, hd, hdc⟩
    refine ⟨d, ⟨hd, ?_⟩, hdc⟩
    rw [hdc]
    exact fun h2 => hne h2.symm

theorem unregisterStep_history (h : ChatHub) (u : Nat) :
    (unregisterStep h u).history = h.history := by
  unfold unregisterStep
  split <;> rfl

theorem any_unregister (h : ChatHub) (u cid0 : Nat) :
    ((unregisterStep h u).clients.any (fun d => d.cid = cid0)) =
      (if u = cid0 then false else h.clients.any (fun d => d.cid = cid0)) := by
  by_cases hmem : h.clients.any (fun d => d.cid = u) = true
  · have h1 : unregisterStep h u =
        { h with clients := h.clients.filter (fun d => d.cid ≠ u),
                 closed := h.closed ++ [u] } := by
      unfold unregisterStep
      rw [hmem]
      simp
    rw [h1]
    by_cases he : u = cid0
    · subst he
      simp [any_filter_self]
    · simp only [if_neg he]
      exact any_filter_ne u cid0 he h.clients
  · have habs := Bool.eq_false_iff.2 hmem
    rw [unregisterStep_of_absent habs]
    by_cases he : u = cid0
    · subst he
      simp [habs]
    · rw [if_neg he]

theorem memAfter_cons_reg (cid0 : Nat) (b : Bool) (c : ChatClient) (ops : List HubOp) :
    memAfter cid0 b (HubOp.register c :: ops) =
      memAfter cid0 (if c.cid = cid0 then true else b) ops := rfl

theorem memAfter_cons_unreg (cid0 : Nat) (b : Bool) (u : Nat) (ops : List HubOp) :
    memAfter cid0 b (HubOp.unregister u :: ops) =
      memAfter cid0 (if u = cid0 then false else b) ops := rfl

theorem runOps_membership (ops : List HubOp) (hno : ∀ op ∈ ops, isBroadcast op = false) :
    ∀ h : ChatHub, h.history = [] →
      ∃ h2, runOps h ops = some h2 ∧ h2.history = [] ∧
        ∀ cid0, h2.clients.any (fun d => d.cid = cid0) =
          memAfter cid0 (h.clients.any (fun d => d.cid = cid0)) ops := by
  induction ops with
  | nil =>
    intro h hh
    exact ⟨h, rfl, hh, fun cid0 => rfl⟩
  | cons op ops ih =>
    intro h hh
    have hno2 : ∀ op2 ∈ ops, isBroadcast op2 = false :=
      fun op2 hop2 => hno op2 (List.mem_cons_of_mem op hop2)
    match op with
    | .broadcast m =>
      exact absurd (hno _ (List.mem_cons_self _ _)) (by simp [isBroadcast])
    | .register c =>
      rcases ih hno2 { h with clients :=
          (if h.clients.any (fun d => d.cid = c.cid) then h.clients
            else h.clients ++ [c]) } hh with ⟨h2, hrun, hh2, hany⟩
      refine ⟨h2, ?_, hh2, ?_⟩
      · show Option.bind (registerStep h c) (fun h1 => runOps h1 ops) = some h2
        rw [registerStep_empty_history hh c]
        exact hrun
      · intro cid0
        rw [hany cid0, memAfter_cons_reg]
        exact congrArg (fun b => memAfter cid0 b ops) (any_insert h.clients c cid0)
    | .unregister u =>
      rcases ih hno2 (unregisterStep h u) (by rw [unregisterStep_history, hh])
        with ⟨h2, hrun, hh2, hany⟩
      refine ⟨h2, ?_, hh2, ?_⟩
      · exact hrun
      · intro cid0
        rw [hany cid0, memAfter_cons_unreg]
        exact congrArg (fun b => memAfter cid0 b ops) (any_unregister h u cid0)

/-- C6 (amended): for every finite sequence of register/unregister requests
processed by the control loop from the initial hub, the membership set is
determined by the *last* request per connection, not by the parity of a net
count: a connection is registered afterwards exactly when its last
register/unregister request was a register (registering is set insertion,
unregistering is set removal; unregistering an absent connection is a
no-op). -/
theorem membership_last_write_wins (ops : List HubOp)
    (hno : ∀ op ∈ ops, isBroadcast op = false) :
    ∃ h2, runOps newChatHub ops = some h2 ∧
      ∀ cid0, h2.clients.any (fun d => d.cid = cid0) = memAfter cid0 false ops := by
  rcases runOps_membership ops hno newChatHub rfl with ⟨h2, hrun, _, hany⟩
  exact ⟨h2, hrun, fun cid0 => hany cid0⟩

theorem membership_last_write_wins_witness :
    (∀ op ∈ [HubOp.register clientA, HubOp.unregister 0, HubOp.register clientB],
        isBroadcast op = false) ∧
    ∃ h2, runOps newChatHub
        [HubOp.register clientA, HubOp.unregister 0, HubOp.register clientB] = some h2 ∧
      ∀ cid0, h2.clients.any (fun d => d.cid = cid0) =
        memAfter cid0 false
          [HubOp.register clientA, HubOp.unregister 0, HubOp.register clientB] :=
  ⟨by decide,
    membership_last_write_wins
      [HubOp.register clientA, HubOp.unregister 0, HubOp.register clientB] (by decide)⟩

/-- The sequence register, register, unregister for the same connection. -/
def parityOps : List HubOp := [.register clientA, .register clientA, .unregister 0]

/-- C6 counterexample: after register, register, unregister of the same
connection (`cid` 0), the net count is 2 − 1 = 1, which is odd, so the
claimed parity characterization says the connection is still registered;
but the code's membership set does not contain it (the map insert is
idempotent and the unregister removed it). -/
theorem membership_parity_cex :
    (runOps newChatHub parityOps).map
        (fun h2 => h2.clients.any (fun d => d.cid = 0)) = some false ∧
    netRegOdd parityOps 0 := by
  constructor
  · decide
  · unfold netRegOdd
    decide

/- ### History growth (C8) -/

theorem registerStep_history_eq {h h1 : ChatHub} {c : ChatClient}
    (hreg : registerStep h c = some h1) : h1.history = h.history := by
  unfold registerStep at hreg
  rcases Option.map_eq_some'.1 hreg with ⟨cs2, _, hEq⟩
  rw [← hEq]

theorem runOps_history_length (ops : List HubOp) :
    ∀ h h2 : ChatHub, runOps h ops = some h2 →
      h2.history.length = h.history.length + ops.countP (fun op => isBroadcast op) := by
  induction ops with
  | nil =>
    intro h h2 hr
    injection hr with hr
    subst hr
    simp
  | cons op ops ih =>
    intro h h2 hr
    rcases Option.bind_eq_some.1 hr with ⟨h1, hop, hrest⟩
    have hlen := ih h1 h2 hrest
    match op with
    | .register c =>
      have hh1 : h1.history = h.history := registerStep_history_eq hop
      rw [hlen, hh1, List.countP_cons]
      simp [isBroadcast]
    | .unregister u =>
      injection hop with hop
      subst hop
      rw [hlen, unregisterStep_history, List.countP_cons]
      simp [isBroadcast]
    | .broadcast m =>
      injection hop with hop
      subst hop
      rw [hlen, broadcastStep_history, List.countP_cons]
      simp [isBroadcast]
      omega

/-- C8 (amended): the hub's in-memory history is *unbounded*: after any
completed request sequence from the initial hub, the history length equals
exactly the number of broadcast requests processed — each broadcast appends
its message and nothing ever trims the history. -/
theorem history_length_eq_broadcast_count (ops : List HubOp)
    (hsome : (runOps newChatHub ops).isSome) :
    (runOps newChatHub ops).map (fun h2 => h2.history.length) =
      some (ops.countP (fun op => isBroadcast op)) := by
  rcases Option.isSome_iff_exists.1 hsome with ⟨h2, hr⟩
  rw [hr, Option.map_some']
  have := runOps_history_length ops newChatHub h2 hr
  simp only [newChatHub, List.length_nil, Nat.zero_add] at this
  rw [this]

theorem history_length_eq_broadcast_count_witness :
    (runOps newChatHub
        [HubOp.broadcast msgA, HubOp.register clientB, HubOp.broadcast msgB]).isSome ∧
    (runOps newChatHub
        [HubOp.broadcast msgA, HubOp.register clientB, HubOp.broadcast msgB]).map
      (fun h2 => h2.history.length) =
      some (List.countP (fun op => isBroadcast op)
        [HubOp.broadcast msgA, HubOp.register clientB, HubOp.broadcast msgB]) :=
  ⟨by decide,
    history_length_eq_broadcast_count
      [HubOp.broadcast msgA, HubOp.register clientB, HubOp.broadcast msgB] (by decide)⟩

/-- C8 counterexample: there is no fixed capacity bounding the history:
for every candidate bound `N`, broadcasting `N + 1` messages from the
initial hub leaves a history of length `N + 1`. -/
theorem history_unbounded_cex :
    ¬ ∃ N : Nat, ∀ ms : List ChatMessage,
        (runBroadcasts newChatHub ms).history.length ≤ N := by
  rintro ⟨N, hN⟩
  have h1 := hN (List.replicate (N + 1) msgA)
  rw [runBroadcasts_history] at h1
  simp only [newChatHub, List.nil_append, List.length_replicate] at h1
  omega

/- ### Mention parsing (C7) -/

/-- The whitespace test of Go's `strings.Fields` (`unicode.IsSpace`),
restricted to its Latin-1 cases; the mention contents in the claims are
ASCII. -/
def isGoSpace (ch : Char) : Bool :=
  ch == ' ' || ch == '\t' || ch == '\n' || ch == '\r' ||
    ch == Char.ofNat 11 || ch == Char.ofNat 12 ||
    ch == Char.ofNat 0x85 || ch == Char.ofNat 0xA0

/-- `strings.Fields`: split the character list around runs of whitespace,
accumulating the current word in reverse. -/
def fieldsAux : List Char → List Char → List (List Char)
  | [], acc => if acc = [] then [] else [acc.reverse]
  | ch :: rest, acc =>
    if isGoSpace ch then
      (if acc = [] then fieldsAux rest [] else acc.reverse :: fieldsAux rest [])
    else fieldsAux rest (ch :: acc)

/-- `strings.Fields(content)` as used by `parseMentions`. -/
def goFields (s : String) : List (List Char) := fieldsAux s.toList []

/-- The keep-predicate complementary to the `TrimFunc` argument in
`parseMentions` (`main.go:125-128`): ASCII letters, digits, underscore,
dot. -/
def isMentionChar (ch : Char) : Bool :=
  ('a' ≤ ch && ch ≤ 'z') || ('A' ≤ ch && ch ≤ 'Z') ||
    ('0' ≤ ch && ch ≤ '9') || ch == '_' || ch == '.'

/-- `strings.TrimFunc`: remove leading and trailing runes that fail
`isMentionChar`. -/
def trimMention (l : List Char) : List Char :=
  ((l.dropWhile (fun ch => !isMentionChar ch)).reverse.dropWhile
      (fun ch => !isMentionChar ch)).reverse

/-- The loop body of `parseMentions` (`main.go:121-133`): a word
contributes a mention when it starts with `@` and is longer than one byte
(`strings.HasPrefix(word, "@") && len(word) > 1`) and the trimmed residue
of `word[1:]` is non-empty. -/
def goMention (w : List Char) : Option String :=
  match w with
  | '@' :: rest =>
    if rest = [] then none
    else
      (if trimMention rest = [] then none else some (String.mk (trimMention rest)))
  | _ => none

/-- `parseMentions` (`main.go:117-137`): iterate over the whitespace-split
words, appending each extracted mention to the accumulator slice. -/
def parseMentions (content : String) : List String :=
  (goFields content).foldl (fun acc w =>
    match goMention w with
    | some m => acc ++ [m]
    | none => acc) []

/-- C7 (amended): `parseMentions` is a pure function whose result is the
ordered `filterMap` of the whitespace-split words through the per-word
mention extraction: it lists mention tokens in order of occurrence, one
output entry per mention-bearing word — in particular it is *not*
deduplicated (a repeated mention appears once per occurrence). -/
theorem parseMentions_ordered (content : String) :
    parseMentions content = (goFields content).filterMap goMention := by
  suffices h : ∀ (ws : List (List Char)) (acc : List String),
      ws.foldl (fun acc w => match goMention w with
        | some m => acc ++ [m]
        | none => acc) acc = acc ++ ws.filterMap goMention by
    simpa [parseMentions] using h (goFields content) []
  intro ws
  induction ws with
  | nil => intro acc; simp
  | cons w ws ih =>
    intro acc
    cases hw : goMention w with
    | some m => simp [List.foldl_cons, hw, ih, List.filterMap_cons]
    | none => simp [List.foldl_cons, hw, ih, List.filterMap_cons]

/-- C7 counterexample: the content `"@a @a"` mentions `a` twice and
`parseMentions` returns it twice — the claimed deduplication (each
mentioned identity exactly once) fails on the code. -/
theorem parseMentions_dedup_cex :
    parseMentions "@a @a" = ["a", "a"] ∧ (parseMentions "@a @a").count "a" ≠ 1 := by
  constructor
  · decide
  · decide

/- ### Connect-time identity (C9) -/

/-- The identity resolution of `serveWs` (`main.go:252-260`): take
`user_id` and `username` from the query parameters; if *either* is empty,
replace *both*: the identifier by a random uuid (passed in here as
`fresh`) and the display name by `fmt.Sprintf("User-%s", userID[:5])`. -/
def resolveIdentity (userID username fresh : String) : String × String :=
  if userID = "" ∨ username = "" then
    (fresh, "User-" ++ String.mk (fresh.toList.take 5))
  else
    (userID, username)

/-- C9 (amended): supplied connect-time parameters are used unchanged only
when *both* are supplied; if either parameter is absent the code synthesizes
*both* (random identifier, display name derived from its first five bytes),
discarding a supplied value for the other parameter — the result is then
independent of the supplied display name. -/
theorem connect_identity_resolution (uid uname fresh : String) :
    (uid ≠ "" → uname ≠ "" → resolveIdentity uid uname fresh = (uid, uname)) ∧
    (uid = "" ∨ uname = "" →
      resolveIdentity uid uname fresh = (fresh, "User-" ++ String.mk (fresh.toList.take 5))) ∧
    (uid = "" → ∀ other : String,
      resolveIdentity uid uname fresh = resolveIdentity uid other fresh) := by
  refine ⟨?_, ?_, ?_⟩
  · intro h1 h2
    rw [resolveIdentity, if_neg (by tauto)]
  · intro h
    rw [resolveIdentity, if_pos h]
  · intro h other
    rw [resolveIdentity, if_pos (Or.inl h), resolveIdentity, if_pos (Or.inl h)]

theorem connect_identity_resolution_witness :
    (("u1" : String) ≠ "" ∧ ("alice" : String) ≠ "" ∧
      (("" : String) = "" ∨ ("alice" : String) = "")) ∧
    (resolveIdentity "u1" "alice" "0123456789" = ("u1", "alice") ∧
      resolveIdentity "" "alice" "0123456789" = ("0123456789", "User-01234")) :=
  ⟨⟨by decide, by decide, Or.inl rfl⟩,
    ⟨(connect_identity_resolution "u1" "alice" "0123456789").1 (by decide) (by decide),
      ((connect_identity_resolution "" "alice" "0123456789").2.1 (Or.inl rfl)).trans
        (by decide)⟩⟩

/-- C9 counterexample: a supplied display name with an absent user
identifier is discarded — the resulting display name is the synthesized
`User-01234`, not the supplied `alice`. -/
theorem connect_identity_cex :
    (resolveIdentity "" "alice" "0123456789").2 = "User-01234" ∧
    (resolveIdentity "" "alice" "0123456789").2 ≠ "alice" := by
  constructor
  · decide
  · decide

/- ### The room-aware hub variant (C10) -/

/-- Association-list lookup, modelling Go map indexing. -/
def alistLookup {β : Type} (k : Nat) : List (Nat × β) → Option β
  | [] => none
  | p :: ps => if p.1 = k then some p.2 else alistLookup k ps

/-- Association-list update, modelling Go map assignment `m[k] = v`
(replaces the entry when the key is present, appends otherwise). -/
def alistSet {β : Type} (k : Nat) (v : β) : List (Nat × β) → List (Nat × β)
  | [] => [(k, v)]
  | p :: ps => if p.1 = k then (k, v) :: ps else p :: alistSet k v ps

/-- Go map-set insertion `set[x] = true` on a set represented as a list. -/
def insertNat (x : Nat) (l : List Nat) : List Nat :=
  if x ∈ l then l else l ++ [x]

/-- The state of the room-aware websocket `Hub` (`part_008`): `clients`
maps a userID to the registered client pointer; `subs` holds each client's
`roomSubs` field (client pointer ↦ subscribed roomIDs, defaulting to the
empty set); `rooms` maps a roomID to the set of subscribed client
pointers.  All mutations are serialized here, as the Go code serializes
them with `h.mu` / `client.mu`. -/
structure RoomHub where
  clients : List (Nat × Nat)
  subs : List (Nat × List Nat)
  rooms : List (Nat × List Nat)
deriving DecidableEq, Repr

/-- A client's `roomSubs` field. -/
def getSubs (cid : Nat) (subs : List (Nat × List Nat)) : List Nat :=
  (alistLookup cid subs).getD []

/-- `Hub.SubscribeToRoom` (`part_008:224-238`): create the room entry if
absent, add the client to it, and record the room in the client's
`roomSubs`. -/
def subscribeToRoom (s : RoomHub) (cid rid : Nat) : RoomHub :=
  { s with
      rooms :=
        (match alistLookup rid s.rooms with
          | none => s.rooms ++ [(rid, [cid])]
          | some members => alistSet rid (insertNat cid members) s.rooms),
      subs := alistSet cid (insertNat rid (getSubs cid s.subs)) s.subs }

/-- `delete(room, client)` followed by the empty-room cleanup
`if len(room) == 0 { delete(h.rooms, roomID) }`, applied when the entry
exists (both `Hub.UnsubscribeFromRoom` and the unregister branch of
`Hub.Run` guard the removal with an existence check). -/
def removeFromRoom (rooms : List (Nat × List Nat)) (rid cid : Nat) :
    List (Nat × List Nat) :=
  match alistLookup rid rooms with
  | none => rooms
  | some members =>
    (if members.filter (fun x => x ≠ cid) = [] then
      rooms.filter (fun p => p.1 ≠ rid)
    else
      alistSet rid (members.filter (fun x => x ≠ cid)) rooms)

/-- `Hub.UnsubscribeFromRoom` (`part_008:241-258`): remove the client from
the room (deleting the room when it becomes empty) and drop the room from
the client's `roomSubs`. -/
def unsubscribeFromRoom (s : RoomHub) (cid rid : Nat) : RoomHub :=
  { s with
      rooms := removeFromRoom s.rooms rid cid,
      subs := alistSet cid ((getSubs cid s.subs).filter (fun x => x ≠ rid)) s.subs }

/-- The register branch of `Hub.Run` (`part_008:191-195`):
`h.clients[client.userID] = client`. -/
def roomRegister (s : RoomHub) (uid cid : Nat) : RoomHub :=
  { s with clients := alistSet uid cid s.clients }

/-- The unregister branch of `Hub.Run` (`part_008:197-218`): if the
client's userID is registered, delete it, close its send channel (not
relevant to the room index), and remove the client from every room in its
`roomSubs`, deleting each room that becomes empty. -/
def roomUnregister (s : RoomHub) (uid cid : Nat) : RoomHub :=
  match alistLookup uid s.clients with
  | none => s
  | some _ =>
    { s with
        clients := s.clients.filter (fun p => p.1 ≠ uid),
        rooms := (getSubs cid s.subs).foldl
          (fun rooms rid => removeFromRoom rooms rid cid) s.rooms }

/-- A serialized request against the room-aware hub.  `BroadcastToRoom` and
`SendToUser` only read the room index (a full queue makes them *schedule*
an unregister request, which appears here as its own operation), so the
mutating operations are exactly these four. -/
inductive RoomOp where
  | register (uid cid : Nat)
  | unregister (uid cid : Nat)
  | subscribe (cid rid : Nat)
  | unsubscribe (cid rid : Nat)
deriving DecidableEq, Repr

def roomStep (s : RoomHub) : RoomOp → RoomHub
  | .register uid cid => roomRegister s uid cid
  | .unregister uid cid => roomUnregister s uid cid
  | .subscribe cid rid => subscribeToRoom s cid rid
  | .unsubscribe cid rid => unsubscribeFromRoom s cid rid

def runRoomOps (s : RoomHub) (ops : List RoomOp) : RoomHub :=
  ops.foldl roomStep s

/-- `NewHub()` (`part_008:178-185`): all maps empty. -/
def initialRoomHub : RoomHub := ⟨[], [], []⟩

/-- The induction invariant for the room index: roomIDs are unique keys and
every room entry has a non-empty subscriber set. -/
def roomInv (s : RoomHub) : Prop :=
  ((s.rooms.map Prod.fst).Nodup) ∧ ∀ p ∈ s.rooms, p.2 ≠ []

theorem alistLookup_none_not_mem {β : Type} (k : Nat) :
    ∀ l : List (Nat × β), alistLookup k l = none → k ∉ l.map Prod.fst := by
  intro l
  induction l with
  | nil => intro _ h; simp at h
  | cons p ps ih =>
    intro hl hk
    by_cases hp : p.1 = k
    · rw [alistLookup, if_pos hp] at hl
      exact Option.noConfusion hl
    · rw [alistLookup, if_neg hp] at hl
      rcases List.mem_cons.1 hk with h1 | h1
      · exact hp h1.symm
      · exact ih hl h1

theorem alistLookup_mem {β : Type} (k : Nat) :
    ∀ (l : List (Nat × β)) {v : β}, alistLookup k l = some v → (k, v) ∈ l := by
  intro l
  induction l with
  | nil => intro v h; exact Option.noConfusion h
  | cons p ps ih =>
    intro v hl
    by_cases hp : p.1 = k
    · rw [alistLookup, if_pos hp] at hl
      injection hl with hl
      subst hl
      subst hp
      exact List.mem_cons_self _ _
    · rw [alistLookup, if_neg hp] at hl
      exact List.mem_cons_of_mem p (ih hl)

theorem alistSet_keys {β : Type} (k : Nat) (v : β) :
    ∀ l : List (Nat × β), (alistLookup k l).isSome →
      (alistSet k v l).map Prod.fst = l.map Prod.fst := by
  intro l
  induction l with
  | nil => intro h; simp [alistLookup] at h
  | cons p ps ih =>
    intro hl
    by_cases hp : p.1 = k
    · rw [alistSet, if_pos hp]
      simp [hp]
    · rw [alistSet, if_neg hp]
      rw [alistLookup, if_neg hp] at hl
      simp [ih hl]

theorem mem_alistSet {β : Type} (k : Nat) (v : β) :
    ∀ (l : List (Nat × β)) (p : Nat × β), p ∈ alistSet k v l → p = (k, v) ∨ p ∈ l := by
  intro l
  induction l with
  | nil =>
    intro p hp
    rw [alistSet] at hp
    exact Or.inl (List.mem_singleton.1 hp)
  | cons q ps ih =>
    intro p hp
    by_cases hq : q.1 = k
    · rw [alistSet, if_pos hq] at hp
      rcases List.mem_cons.1 hp with h1 | h1
      · exact Or.inl h1
      · exact Or.inr (List.mem_cons_of_mem q h1)
    · rw [alistSet, if_neg hq] at hp
      rcases List.mem_cons.1 hp with h1 | h1
      · exact Or.inr (h1 ▸ List.mem_cons_self q ps)
      · rcases ih p h1 with h2 | h2
        · exact Or.inl h2
        · exact Or.inr (List.mem_cons_of_mem q h2)

theorem insertNat_ne_nil (x : Nat) (l : List Nat) (hl : l ≠ []) :
    insertNat x l ≠ [] := by
  unfold insertNat
  split
  · exact hl
  · simp

theorem removeFromRoom_inv (rid cid : Nat) (rooms : List (Nat × List Nat))
    (hk : (rooms.map Prod.fst).Nodup) (hv : ∀ p ∈ rooms, p.2 ≠ []) :
    ((removeFromRoom rooms rid cid).map Prod.fst).Nodup ∧
      ∀ p ∈ removeFromRoom rooms rid cid, p.2 ≠ [] := by
  unfold removeFromRoom
  cases hl : alistLookup rid rooms with
  | none => exact ⟨hk, hv⟩
  | some members =>
    dsimp only
    by_cases hempty : members.filter (fun x => x ≠ cid) = []
    · rw [if_pos hempty]
      constructor
      · exact hk.sublist ((List.filter_sublist rooms).map Prod.fst)
      · intro p hp
        exact hv p (List.mem_of_mem_filter hp)
    · rw [if_neg hempty]
      constructor
      · rw [alistSet_keys rid _ rooms (by rw [hl]; rfl)]
        exact hk
      · intro p hp
        rcases mem_alistSet rid _ rooms p hp with h1 | h1
        · rw [h1]
          exact hempty
        · exact hv p h1

theorem foldl_removeFromRoom_inv (cid : Nat) (rids : List Nat) :
    ∀ rooms : List (Nat × List Nat),
      (rooms.map Prod.fst).Nodup → (∀ p ∈ rooms, p.2 ≠ []) →
      (((rids.foldl (fun r rid => removeFromRoom r rid cid) rooms).map Prod.fst).Nodup ∧
        ∀ p ∈ rids.foldl (fun r rid => removeFromRoom r rid cid) rooms, p.2 ≠ []) := by
  induction rids with
  | nil => intro rooms hk hv; exact ⟨hk, hv⟩
  | cons rid rids ih =>
    intro rooms hk hv
    rcases removeFromRoom_inv rid cid rooms hk hv with ⟨hk2, hv2⟩
    exact ih (removeFromRoom rooms rid cid) hk2 hv2

theorem roomStep_inv (s : RoomHub) (op : RoomOp) (hs : roomInv s) :
    roomInv (roomStep s op) := by
  rcases hs with ⟨hk, hv⟩
  cases op with
  | register uid cid => exact ⟨hk, hv⟩
  | unregister uid cid =>
    show roomInv (roomUnregister s uid cid)
    unfold roomUnregister
    cases alistLookup uid s.clients with
    | none => exact ⟨hk, hv⟩
    | some c =>
      dsimp only
      exact foldl_removeFromRoom_inv cid (getSubs cid s.subs) s.rooms hk hv
  | subscribe cid rid =>
    show roomInv (subscribeToRoom s cid rid)
    unfold subscribeToRoom
    cases hl : alistLookup rid s.rooms with
    | none =>
      dsimp only
      refine ⟨?_, ?_⟩
      · rw [List.map_append, List.nodup_append]
        refine ⟨hk, List.nodup_singleton _, ?_⟩
        intro x hx hx2
        simp only [List.map_cons, List.map_nil, List.mem_singleton] at hx2
        exact alistLookup_none_not_mem rid s.rooms hl (hx2 ▸ hx)
      · intro p hp
        rcases List.mem_append.1 hp with h1 | h1
        · exact hv p h1
        · rw [List.mem_singleton.1 h1]
          simp
    | some members =>
      dsimp only
      refine ⟨?_, ?_⟩
      · rw [alistSet_keys rid _ s.rooms (by rw [hl]; rfl)]
        exact hk
      · intro p hp
        rcases mem_alistSet rid _ s.rooms p hp with h1 | h1
        · rw [h1]
          exact insertNat_ne_nil cid members
            (hv (rid, members) (alistLookup_mem rid s.rooms hl))
        · exact hv p h1
  | unsubscribe cid rid =>
    exact removeFromRoom_inv rid cid s.rooms hk hv

theorem runRoomOps_inv (ops : List RoomOp) :
    ∀ s : RoomHub, roomInv s → roomInv (runRoomOps s ops) := by
  induction ops with
  | nil => intro s hs; exact hs
  | cons op ops ih =>
    intro s hs
    exact ih (roomStep s op) (roomStep_inv s op hs)

/-- C10: in the room-aware hub variant, every room entry present in the
rooms map has a non-empty subscriber set, after any serialized sequence of
register/unregister/subscribe/unsubscribe operations from the initial hub:
`SubscribeToRoom` creates an entry only when adding a subscriber, and both
`UnsubscribeFromRoom` and the unregister branch of `Run` delete an entry
from which the last subscriber was removed. -/
theorem rooms_nonempty (ops : List RoomOp) :
    ∀ p ∈ (runRoomOps initialRoomHub ops).rooms, p.2 ≠ [] :=
  (runRoomOps_inv ops initialRoomHub
    ⟨List.nodup_nil, fun p hp => absurd hp (List.not_mem_nil p)⟩).2

theorem rooms_nonempty_witness :
    ((7, [5]) ∈ (runRoomOps initialRoomHub
        [RoomOp.subscribe 5 7, RoomOp.subscribe 4 7, RoomOp.unsubscribe 4 7]).rooms) ∧
    ((7, [5]) : Nat × List Nat).2 ≠ [] :=
  ⟨by decide,
    rooms_nonempty [RoomOp.subscribe 5 7, RoomOp.subscribe 4 7, RoomOp.unsubscribe 4 7]
      (7, [5]) (by decide)⟩
